import Mathlib

/-!
Verification of the channel-sorter bot (`bot.py`).

The algorithmic core of the program consists of
* the balanced partitioner `balance_categories` (with helpers `score`,
  `sum_div` and the recursive enumerator `bal_cat_rec`), and
* the position reconciler: the position-adjustment loop in the `sort`
  command (modelled as `move_channel` / `adjust_position`) together with
  the target-position derivation `new_pos_of`.

The definitions below are shallow embeddings of the Python source:
Python integers become `Nat`/`Int`, Python tuples/lists become `List`,
the mutable best-so-far dictionary of `bal_cat_rec` becomes an explicit
accumulator threaded through a fold, and the in-place mutation of channel
objects in `sort` becomes a `List.map` over an immutable channel record.
-/

/-- `score(arr) = sum(e**2 for e in arr)` from `bot.py`. -/
def score (arr : List ℕ) : ℕ :=
  (arr.map (fun e => e ^ 2)).sum

/-- Python slice-sum `sum(arr[i:j])` (slices clamp at the ends). -/
def slice_sum (arr : List ℕ) (i j : ℕ) : ℕ :=
  ((arr.drop i).take (j - i)).sum

/-- `sum_div(arr, dividers)` from `bot.py`: the segment sums between
dividers, with implicit end dividers `0` and `len(arr)`. -/
def sum_div (arr : List ℕ) (dividers : List ℕ) : List ℕ :=
  let start_indices := 0 :: dividers
  let end_indices := dividers ++ [arr.length]
  (start_indices.zip end_indices).map (fun p => slice_sum arr p.1 p.2)

/-- `sys.maxsize` on the (64-bit CPython) platform the bot runs on; the
initial value of `data["top_score"]` in `balance_categories`. -/
def maxsize : ℕ := 9223372036854775807

/-- One step of the best-so-far update performed by `bal_cat_rec` when all
dividers have been placed (`m == 0`). -/
def bc_step (arr : List ℕ) (data : List ℕ × ℕ) (cur_indices : List ℕ) : List ℕ × ℕ :=
  let new_score := score (sum_div arr cur_indices)
  if new_score < data.2 then (cur_indices, new_score) else data

/-- `bal_cat_rec(m, i, cur_indices)` from `bot.py`; the closed-over mutable
`data` dictionary is threaded explicitly, and `for j in range(i, arr_len)`
becomes a fold over `List.range' i (arr_len - i)`. -/
def bal_cat_rec (arr : List ℕ) : ℕ → ℕ → List ℕ → List ℕ × ℕ → List ℕ × ℕ
  | 0, _, cur_indices, data => bc_step arr data cur_indices
  | Nat.succ m, i, cur_indices, data =>
      (List.range' i (arr.length - i)).foldl
        (fun d j => bal_cat_rec arr m (j + 1) (cur_indices ++ [j]) d) data

/-- `balance_categories(arr, num_cats)` from `bot.py`. -/
def balance_categories (arr : List ℕ) (num_cats : ℕ) : List ℕ :=
  let num_divs := num_cats - 1
  (bal_cat_rec arr num_divs 0 [] (List.replicate num_divs 0, maxsize)).1

/-- A channel as far as the reconciler is concerned: an id, a display
name, the id of its current category and its global position ordinal. -/
structure Chan where
  id : ℕ
  name : String
  category_id : ℕ
  position : ℤ
  deriving DecidableEq, Repr

/-- The per-channel position adjustment performed by the loops at
`bot.py:166-175`: moving the tracked channel from `old_pos` to `new_pos`
shifts a channel sitting at `p` by one slot when it is in the way. -/
def adjust_position (old_pos new_pos p : ℤ) : ℤ :=
  if old_pos > new_pos then
    if new_pos ≤ p ∧ p < old_pos then p + 1 else p
  else
    if old_pos < p ∧ p ≤ new_pos then p - 1 else p

/-- The body of the move in `sort` (`bot.py:164-178`): every channel in the
shared list gets `adjust_position` applied (the moved channel itself is
never in the shifted interval), then the moved channel's category and
position are overwritten.  `chs` is the global `channels` list. -/
def move_channel (chs : List Chan) (moved_id cat_id : ℕ) (new_pos : ℤ) : List Chan :=
  match chs.find? (fun c => c.id == moved_id) with
  | none => chs
  | some ch =>
      (chs.map (fun c => { c with position := adjust_position ch.position new_pos c.position })).map
        (fun c => if c.id == moved_id then { c with category_id := cat_id, position := new_pos } else c)

/-- Target-position derivation from `bot.py:157-162`: the desired rank `i`
names the channel currently at index `i` of the category listing and its
position is taken; past the end, one past the last channel's position.
An empty listing makes the Python code fail (`cat_channels[-1]`), so the
embedding returns an `Option`. -/
def new_pos_of (cat_channels : List Chan) (i : ℕ) : Option ℤ :=
  match cat_channels.get? i with
  | some c => some c.position
  | none => cat_channels.getLast?.map (fun c => c.position + 1)

/-! ### Specification-side definitions -/

/-- A valid boundary set in the sense of the specification: `groupCount - 1`
strictly increasing indices drawn from `[0, n]`. -/
def SpecCand (n groupCount : ℕ) (B : List ℕ) : Prop :=
  B.length = groupCount - 1 ∧ B.Pairwise (· < ·) ∧ ∀ b ∈ B, b ≤ n

instance (n groupCount : ℕ) (B : List ℕ) : Decidable (SpecCand n groupCount B) := by
  unfold SpecCand; infer_instance

/-- The candidate divider tuples enumerated by `bal_cat_rec`, in
enumeration order: strictly increasing lists of length `m` with entries in
`[i, n)`. -/
def cands (n : ℕ) : ℕ → ℕ → List (List ℕ)
  | 0, _ => [[]]
  | Nat.succ m, i =>
      (List.range' i (n - i)).flatMap
        (fun j => (cands n m (j + 1)).map (fun rest => j :: rest))

/-- Positions of a channel list. -/
def posList (chs : List Chan) : List ℤ :=
  chs.map Chan.position

/-- The contiguous range `0..N-1` as integers. -/
def range_cast (N : ℕ) : List ℤ :=
  (List.range N).map Int.ofNat

/-- The reconciler's density invariant: the positions are exactly the
contiguous duplicate-free range `0..n-1` (as a multiset). -/
def DensePos (chs : List Chan) : Prop :=
  (posList chs).Perm (range_cast chs.length)

instance (chs : List Chan) : Decidable (DensePos chs) := by
  unfold DensePos; exact List.decidablePerm _ _

/-! ### The end-to-end reconciler scenario -/

/-- The four-channel container of the end-to-end scenario. -/
def demo_channels : List Chan :=
  [⟨1, "Apple", 0, 0⟩, ⟨2, "Banana", 0, 1⟩, ⟨3, "Cherry", 0, 2⟩, ⟨4, "Date", 0, 3⟩]

/-- C2: repositioning Apple (currently at position 0) to rank 2 — the slot
immediately after Cherry — derives target position 2 from the channel
currently occupying rank 2 and yields Apple at 2, Banana at 0, Cherry at 1
and Date unchanged at 3. -/
theorem c2_end_to_end_scenario :
    new_pos_of demo_channels 2 = some 2 ∧
    move_channel demo_channels 1 0 2 =
      [⟨1, "Apple", 0, 2⟩, ⟨2, "Banana", 0, 0⟩, ⟨3, "Cherry", 0, 1⟩, ⟨4, "Date", 0, 3⟩] := by
  constructor
  · rfl
  · rfl

/-! ### Partitioner: cost function lemmas -/

/-- Segment sums written as a recursion on the divider list (proof-friendly
reformulation of `sum_div`). -/
def segs (arr : List ℕ) : ℕ → List ℕ → List ℕ
  | s, [] => [slice_sum arr s arr.length]
  | s, d :: ds => slice_sum arr s d :: segs arr d ds

lemma zip_map_eq_segs (arr : List ℕ) (C : List ℕ) : ∀ s : ℕ,
    ((s :: C).zip (C ++ [arr.length])).map (fun p => slice_sum arr p.1 p.2) = segs arr s C := by
  induction C with
  | nil => intro s; simp [segs]
  | cons d ds ih =>
      intro s
      simp only [List.cons_append, List.zip_cons_cons, List.map_cons, segs]
      rw [ih d]

lemma sum_div_eq_segs (arr C : List ℕ) : sum_div arr C = segs arr 0 C := by
  simpa [sum_div] using zip_map_eq_segs arr C 0

lemma score_nil : score [] = 0 := rfl

lemma score_cons (a : ℕ) (l : List ℕ) : score (a :: l) = a ^ 2 + score l := by
  simp [score]

lemma slice_split (arr : List ℕ) {i j k : ℕ} (h1 : i ≤ j) (h2 : j ≤ k) :
    slice_sum arr i k = slice_sum arr i j + slice_sum arr j k := by
  unfold slice_sum
  have h3 : k - i = (j - i) + (k - j) := by omega
  rw [h3, List.take_add, List.sum_append, List.drop_drop, Nat.add_sub_cancel' h1]

lemma segs_score_append_length (arr : List ℕ) (C : List ℕ) : ∀ s : ℕ,
    score (segs arr s (C ++ [arr.length])) = score (segs arr s C) := by
  induction C with
  | nil =>
      intro s
      simp [segs, score, slice_sum, Nat.sub_self]
  | cons d ds ih =>
      intro s
      simp only [List.cons_append, List.append_eq, segs, score_cons, ih d]

lemma sq_add_sq_le_add_sq (a b : ℕ) : a ^ 2 + b ^ 2 ≤ (a + b) ^ 2 := by
  rw [add_sq]
  exact Nat.add_le_add_right (Nat.le_add_right _ _) _

lemma insert_seg_cost (arr : List ℕ) (j : ℕ) (D : List ℕ)
    (hD : ∀ d ∈ D, j < d) (hjn : j ≤ arr.length) :
    ∀ (P : List ℕ) (s : ℕ), s ≤ j → (∀ p ∈ P, p < j) →
    score (segs arr s (P ++ j :: D)) ≤ score (segs arr s (P ++ D)) := by
  intro P
  induction P with
  | nil =>
      intro s hs _
      cases D with
      | nil =>
          have hsplit := slice_split arr hs hjn
          simp only [List.nil_append, segs, score_cons, score_nil, hsplit]
          have := sq_add_sq_le_add_sq (slice_sum arr s j) (slice_sum arr j arr.length)
          omega
      | cons d ds =>
          have hjd : j ≤ d := le_of_lt (hD d (by simp))
          have hsplit := slice_split arr hs hjd
          simp only [List.nil_append, segs, score_cons, hsplit]
          have := sq_add_sq_le_add_sq (slice_sum arr s j) (slice_sum arr j d)
          omega
  | cons p P' ih =>
      intro s hs hP
      have hp : p < j := hP p (by simp)
      simp only [List.cons_append, List.append_eq, segs, score_cons]
      have := ih p (le_of_lt hp) (fun q hq => hP q (by simp [hq]))
      simp only [List.append_eq] at this
      omega

/-! ### Partitioner: the fold of best-so-far updates -/

lemma bc_step_snd_le (arr : List ℕ) (d : List ℕ × ℕ) (c : List ℕ) :
    (bc_step arr d c).2 ≤ d.2 := by
  by_cases hlt : score (sum_div arr c) < d.2 <;> simp [bc_step, hlt] <;> omega

lemma foldl_bc_snd_le (arr : List ℕ) (cs : List (List ℕ)) :
    ∀ d, (cs.foldl (bc_step arr) d).2 ≤ d.2 := by
  induction cs with
  | nil => intro d; simp
  | cons c cs ih =>
      intro d
      calc (List.foldl (bc_step arr) (bc_step arr d c) cs).2 ≤ (bc_step arr d c).2 := ih _
        _ ≤ d.2 := bc_step_snd_le arr d c

lemma foldl_bc_le_mem (arr : List ℕ) (cs : List (List ℕ)) :
    ∀ d, ∀ c ∈ cs, (cs.foldl (bc_step arr) d).2 ≤ score (sum_div arr c) := by
  induction cs with
  | nil => intro d c hc; simp at hc
  | cons c₀ cs ih =>
      intro d c hc
      rcases List.mem_cons.mp hc with h | h
      · subst h
        refine le_trans (foldl_bc_snd_le arr cs _) ?_
        by_cases hlt : score (sum_div arr c) < d.2 <;> simp [bc_step, hlt] <;> omega
      · exact ih _ c h

lemma foldl_bc_result (arr : List ℕ) (cs : List (List ℕ)) :
    ∀ d, cs.foldl (bc_step arr) d = d ∨
      ((cs.foldl (bc_step arr) d).1 ∈ cs ∧
        (cs.foldl (bc_step arr) d).2 = score (sum_div arr (cs.foldl (bc_step arr) d).1)) := by
  induction cs with
  | nil => intro d; left; rfl
  | cons c₀ cs ih =>
      intro d
      rcases ih (bc_step arr d c₀) with h | h
      · simp only [List.foldl_cons, h]
        by_cases hlt : score (sum_div arr c₀) < d.2
        · right
          simp [bc_step, hlt]
        · left
          simp [bc_step, hlt]
      · right
        simp only [List.foldl_cons] at h ⊢
        exact ⟨List.mem_cons_of_mem _ h.1, h.2⟩

lemma foldl_bc_fix (arr : List ℕ) (cs : List (List ℕ)) :
    ∀ d, (cs.foldl (bc_step arr) d).2 = d.2 → cs.foldl (bc_step arr) d = d := by
  induction cs with
  | nil => intro d _; rfl
  | cons c₀ cs ih =>
      intro d h
      by_cases hlt : score (sum_div arr c₀) < d.2
      · exfalso
        have hstep : bc_step arr d c₀ = (c₀, score (sum_div arr c₀)) := by simp [bc_step, hlt]
        simp only [List.foldl_cons, hstep] at h
        have h1 := foldl_bc_snd_le arr cs (c₀, score (sum_div arr c₀))
        omega
      · have hstep : bc_step arr d c₀ = d := by simp [bc_step, hlt]
        simp only [List.foldl_cons, hstep] at h ⊢
        exact ih d h

/-! ### Partitioner: the enumeration of candidate divider tuples -/

lemma mem_range'_iff {s n m : ℕ} : m ∈ List.range' s n ↔ s ≤ m ∧ m < s + n := by
  simp only [List.mem_range']
  constructor
  · rintro ⟨i, hi, rfl⟩; omega
  · intro h; exact ⟨m - s, by omega, by omega⟩

lemma cands_shape (n : ℕ) : ∀ (m i : ℕ), ∀ c ∈ cands n m i,
    c.length = m ∧ c.Pairwise (· < ·) ∧ ∀ x ∈ c, i ≤ x ∧ x < n := by
  intro m
  induction m with
  | zero =>
      intro i c hc
      simp [cands] at hc
      subst hc
      simp
  | succ m ih =>
      intro i c hc
      simp only [cands, List.mem_flatMap, List.mem_map] at hc
      obtain ⟨j, hj, rest, hrest, rfl⟩ := hc
      obtain ⟨hji, hjn⟩ := mem_range'_iff.mp hj
      have hjn' : j < n := by omega
      obtain ⟨hlen, hpw, hmem⟩ := ih (j + 1) rest hrest
      refine ⟨by simp [hlen], ?_, ?_⟩
      · exact List.Pairwise.cons (fun x hx => by have := hmem x hx; omega) hpw
      · intro x hx
        rcases List.mem_cons.mp hx with rfl | hx
        · exact ⟨hji, hjn'⟩
        · have := hmem x hx; omega

lemma cands_complete (n : ℕ) : ∀ (m i : ℕ), ∀ c : List ℕ, c.length = m →
    c.Pairwise (· < ·) → (∀ x ∈ c, i ≤ x ∧ x < n) → c ∈ cands n m i := by
  intro m
  induction m with
  | zero =>
      intro i c hlen _ _
      rw [List.length_eq_zero] at hlen
      simp [cands, hlen]
  | succ m ih =>
      intro i c hlen hpw hmem
      cases c with
      | nil => simp at hlen
      | cons x rest =>
          simp only [cands, List.mem_flatMap, List.mem_map]
          have hx := hmem x (by simp)
          refine ⟨x, mem_range'_iff.mpr ⟨hx.1, by omega⟩, rest, ?_, rfl⟩
          refine ih (x + 1) rest (by simpa using hlen) (List.Pairwise.sublist (by simp) hpw) ?_
          intro y hy
          have h1 := List.rel_of_pairwise_cons hpw hy
          have h2 := hmem y (by simp [hy])
          omega

lemma lex_lt_of_head_lt {x y : ℕ} {xs ys : List ℕ} (h : x < y) :
    List.Lex (· < ·) (x :: xs) (y :: ys) := List.Lex.rel h

lemma cands_sorted (n : ℕ) : ∀ (m i : ℕ), (cands n m i).Pairwise (List.Lex (· < ·)) := by
  intro m
  induction m with
  | zero => intro i; simp [cands]
  | succ m ih =>
      intro i
      rw [cands, List.pairwise_flatMap]
      constructor
      · intro j _
        rw [List.pairwise_map]
        exact (ih (j + 1)).imp (fun h => List.Lex.cons h)
      · have hpw : (List.range' i (n - i)).Pairwise (· < ·) := List.pairwise_lt_range' _ _
        refine hpw.imp_of_mem ?_
        intro a b _ _ hab
        intro x hx y hy
        simp only [List.mem_map] at hx hy
        obtain ⟨ra, _, rfl⟩ := hx
        obtain ⟨rb, _, rfl⟩ := hy
        exact List.Lex.rel hab

lemma lex_trans {l₁ l₂ l₃ : List ℕ} (h1 : List.Lex (· < ·) l₁ l₂)
    (h2 : List.Lex (· < ·) l₂ l₃) : List.Lex (· < ·) l₁ l₃ := by
  induction h1 generalizing l₃ with
  | nil =>
      cases h2 with
      | cons _ => exact List.Lex.nil
      | rel _ => exact List.Lex.nil
  | @cons a as bs _ ih =>
      cases h2 with
      | cons h2' => exact List.Lex.cons (ih h2')
      | rel hr => exact List.Lex.rel hr
  | @rel a as b bs hr =>
      cases h2 with
      | cons _ => exact List.Lex.rel hr
      | rel hr2 => exact List.Lex.rel (lt_trans hr hr2)

lemma cands_empty (n : ℕ) : ∀ (m i : ℕ), n < m + i + 1 → cands n (m + 1) i = [] := by
  intro m
  induction m with
  | zero =>
      intro i h
      have : n - i = 0 := by omega
      simp [cands, this]
  | succ m ih =>
      intro i h
      rw [cands]
      apply List.eq_nil_iff_forall_not_mem.mpr
      intro c hc
      simp only [List.mem_flatMap, List.mem_map] at hc
      obtain ⟨j, hj, rest, hrest, _⟩ := hc
      obtain ⟨hji, _⟩ := mem_range'_iff.mp hj
      rw [ih (j + 1) (by omega)] at hrest
      exact absurd hrest (List.not_mem_nil rest)

/-! ### Partitioner: `bal_cat_rec` is the best-so-far fold over `cands` -/

lemma foldl_flatMap {α β γ : Type} (f : γ → β → γ) (g : α → List β) (l : List α) :
    ∀ d : γ, (l.flatMap g).foldl f d = l.foldl (fun d a => (g a).foldl f d) d := by
  induction l with
  | nil => intro d; rfl
  | cons a l ih =>
      intro d
      simp only [List.flatMap_cons, List.foldl_append, List.foldl_cons]
      exact ih _

lemma bal_cat_rec_eq_foldl (arr : List ℕ) : ∀ (m i : ℕ) (cur : List ℕ) (d : List ℕ × ℕ),
    bal_cat_rec arr m i cur d =
      (cands arr.length m i).foldl (fun d c => bc_step arr d (cur ++ c)) d := by
  intro m
  induction m with
  | zero =>
      intro i cur d
      simp [bal_cat_rec, cands]
  | succ m ih =>
      intro i cur d
      rw [bal_cat_rec, cands, foldl_flatMap]
      apply List.foldl_ext
      intro d' j _
      rw [List.foldl_map, ih (j + 1) (cur ++ [j]) d']
      apply List.foldl_ext
      intro d'' c _
      simp [List.append_assoc]

lemma balance_categories_eq_foldl (arr : List ℕ) (num_cats : ℕ) :
    balance_categories arr num_cats =
      ((cands arr.length (num_cats - 1) 0).foldl (bc_step arr)
        (List.replicate (num_cats - 1) 0, maxsize)).1 := by
  simp only [balance_categories]
  rw [bal_cat_rec_eq_foldl]
  congr 1

/-- The first candidate (in enumeration order) attaining the final score is
the one kept: the fold keeps the earliest strict minimum. -/
lemma foldl_bc_first (arr : List ℕ) (cs : List (List ℕ)) :
    ∀ d : List ℕ × ℕ, cs.Pairwise (List.Lex (· < ·)) →
    (d.2 = maxsize ∨ (d.2 = score (sum_div arr d.1) ∧ ∀ c ∈ cs, List.Lex (· < ·) d.1 c)) →
    ∀ c ∈ cs, score (sum_div arr c) = (cs.foldl (bc_step arr) d).2 →
      (cs.foldl (bc_step arr) d).2 < maxsize →
      c = (cs.foldl (bc_step arr) d).1 ∨ List.Lex (· < ·) (cs.foldl (bc_step arr) d).1 c := by
  induction cs with
  | nil => intro d _ _ c hc; simp at hc
  | cons c₀ cs ih =>
      intro d hsort hinv c hc hsc hmax
      have hsort' : cs.Pairwise (List.Lex (· < ·)) := (List.pairwise_cons.mp hsort).2
      have hhead : ∀ c' ∈ cs, List.Lex (· < ·) c₀ c' := (List.pairwise_cons.mp hsort).1
      by_cases hlt : score (sum_div arr c₀) < d.2
      · have hstep : bc_step arr d c₀ = (c₀, score (sum_div arr c₀)) := by simp [bc_step, hlt]
        have hinv' : ((c₀, score (sum_div arr c₀)) : List ℕ × ℕ).2 = maxsize ∨
            (((c₀, score (sum_div arr c₀)) : List ℕ × ℕ).2 =
              score (sum_div arr ((c₀, score (sum_div arr c₀)) : List ℕ × ℕ).1) ∧
              ∀ c' ∈ cs, List.Lex (· < ·) ((c₀, score (sum_div arr c₀)) : List ℕ × ℕ).1 c') :=
          Or.inr ⟨rfl, hhead⟩
        rcases List.mem_cons.mp hc with hEq | hmem
        · subst hEq
          simp only [List.foldl_cons, hstep] at hsc hmax ⊢
          left
          have hfix := foldl_bc_fix arr cs (c, score (sum_div arr c)) hsc.symm
          rw [hfix]
        · simp only [List.foldl_cons, hstep] at hsc hmax ⊢
          exact ih _ hsort' hinv' c hmem hsc hmax
      · have hstep : bc_step arr d c₀ = d := by simp [bc_step, hlt]
        rcases List.mem_cons.mp hc with hEq | hmem
        · -- the head was not better than the current state, and the final
          -- score equals the head's score: the state never changed again
          subst hEq
          simp only [List.foldl_cons, hstep] at hsc hmax ⊢
          have hle := foldl_bc_snd_le arr cs d
          have hd2 : (cs.foldl (bc_step arr) d).2 = d.2 := by omega
          have hfix := foldl_bc_fix arr cs d hd2
          rcases hinv with hsent | ⟨_, hlex⟩
          · rw [hfix] at hmax
            omega
          · right
            rw [hfix]
            exact hlex c (by simp)
        · simp only [List.foldl_cons, hstep] at hsc hmax ⊢
          have hinv' : d.2 = maxsize ∨ (d.2 = score (sum_div arr d.1) ∧
              ∀ c' ∈ cs, List.Lex (· < ·) d.1 c') := by
            rcases hinv with h | ⟨h1, h2⟩
            · exact Or.inl h
            · exact Or.inr ⟨h1, fun c' hc' => h2 c' (by simp [hc'])⟩
          exact ih _ hsort' hinv' c hmem hsc hmax

/-! ### Partitioner: every spec-valid boundary set is dominated by an
enumerated one -/

lemma dropWhile_first_not (p : ℕ → Bool) : ∀ (l : List ℕ) {d : ℕ} {D : List ℕ},
    l.dropWhile p = d :: D → p d = false := by
  intro l
  induction l with
  | nil => intro d D h; simp [List.dropWhile] at h
  | cons a l ih =>
      intro d D h
      rw [List.dropWhile_cons] at h
      by_cases hp : p a = true
      · rw [if_pos hp] at h
        exact ih h
      · rw [if_neg hp] at h
        injection h with h1 _
        subst h1
        simpa using hp

lemma lex_append_left (P : List ℕ) {xs ys : List ℕ} (h : List.Lex (· < ·) xs ys) :
    List.Lex (· < ·) (P ++ xs) (P ++ ys) := by
  induction P with
  | nil => simpa
  | cons p P ih => exact List.Lex.cons ih

lemma exists_least_missing (C : List ℕ) (hnd : C.Nodup) :
    ∃ j, j ≤ C.length ∧ j ∉ C ∧ ∀ i < j, i ∈ C := by
  have hex : ∃ j, j ∉ C := by
    by_contra hall
    push_neg at hall
    have hsub : (List.range (C.length + 1)) ⊆ C := fun x _ => hall x
    have hlen := ((List.nodup_range _).subperm hsub).length_le
    simp at hlen
  refine ⟨Nat.find hex, ?_, Nat.find_spec hex, ?_⟩
  · by_contra hgt
    push_neg at hgt
    have hsub : (List.range (C.length + 1)) ⊆ C := by
      intro x hx
      have hxlt : x < C.length + 1 := List.mem_range.mp hx
      have := Nat.find_min hex (show x < Nat.find hex by omega)
      simpa using this
    have hlen := ((List.nodup_range _).subperm hsub).length_le
    simp at hlen
  · intro i hi
    have := Nat.find_min hex hi
    simpa using this

lemma spec_to_enum (arr : List ℕ) (k : ℕ) (hk2 : k ≤ arr.length + 1) :
    ∀ B : List ℕ, SpecCand arr.length k B →
    ∃ B', B' ∈ cands arr.length (k - 1) 0 ∧
      score (sum_div arr B') ≤ score (sum_div arr B) ∧
      (B' = B ∨ List.Lex (· < ·) B' B) := by
  intro B hB
  obtain ⟨hlen, hpw, hle⟩ := hB
  by_cases hn : arr.length ∈ B
  case neg =>
    refine ⟨B, ?_, le_refl _, Or.inl rfl⟩
    exact cands_complete _ _ _ B hlen hpw
      (fun x hx => ⟨Nat.zero_le _, lt_of_le_of_ne (hle x hx) (fun hEq => hn (hEq ▸ hx))⟩)
  case pos =>
    have hBne : B ≠ [] := by rintro rfl; simp at hn
    have hBlen1 : 1 ≤ B.length := List.length_pos.mpr hBne
    have hsplit : B.dropLast ++ [B.getLast hBne] = B := List.dropLast_append_getLast hBne
    have hpw' : (B.dropLast ++ [B.getLast hBne]).Pairwise (· < ·) := by rw [hsplit]; exact hpw
    rw [List.pairwise_append] at hpw'
    obtain ⟨hpwC, _, hcross⟩ := hpw'
    have hlast : B.getLast hBne = arr.length := by
      rw [← hsplit] at hn
      rcases List.mem_append.mp hn with h | h
      · exfalso
        have h1 : arr.length < B.getLast hBne := hcross _ h _ (by simp)
        have h2 : B.getLast hBne ≤ arr.length := hle _ (List.getLast_mem hBne)
        omega
      · exact (List.mem_singleton.mp h).symm
    set C := B.dropLast with hCdef
    have hClt : ∀ c ∈ C, c < arr.length := by
      intro c hc
      rw [← hlast]
      exact hcross _ hc _ (by simp)
    have hClen : C.length = B.length - 1 := List.length_dropLast B
    have hCnd : C.Nodup := hpwC.imp (fun h => ne_of_lt h)
    obtain ⟨j, hjle, hjnot, _⟩ := exists_least_missing C hCnd
    have hjn : j < arr.length := by omega
    set P := C.takeWhile (· < j) with hPdef
    set D := C.dropWhile (· < j) with hDdef
    have hPD : P ++ D = C := List.takeWhile_append_dropWhile _ _
    have hpwC' : (P ++ D).Pairwise (· < ·) := by rw [hPD]; exact hpwC
    rw [List.pairwise_append] at hpwC'
    obtain ⟨hpwP, hpwD, hcrossPD⟩ := hpwC'
    have hPlt : ∀ p ∈ P, p < j := by
      intro p hp
      simpa using List.mem_takeWhile_imp hp
    have hDgt : ∀ d ∈ D, j < d := by
      intro d hd
      have hdC : d ∈ C := by
        rw [← hPD]; exact List.mem_append_right _ hd
      have hdj : d ≠ j := fun hEq => hjnot (hEq ▸ hdC)
      rcases hD0 : D with _ | ⟨d₀, D'⟩
      · rw [hD0] at hd; simp at hd
      · have h0 : ¬ (d₀ < j) := by
          simpa using dropWhile_first_not _ _ (hDdef ▸ hD0 : C.dropWhile (· < j) = d₀ :: D')
        rw [hD0] at hd
        rcases List.mem_cons.mp hd with hEq | hd'
        · subst hEq; omega
        · have : d₀ < d := by
            rw [hD0] at hpwD
            exact List.rel_of_pairwise_cons hpwD hd'
          omega
    have hBeq : B = C ++ [arr.length] := by rw [← hlast]; exact hsplit.symm
    refine ⟨P ++ j :: D, ?_, ?_, ?_⟩
    · apply cands_complete
      · have h1 : P.length + D.length = C.length := by rw [← List.length_append, hPD]
        simp only [List.length_append, List.length_cons]
        omega
      · rw [List.pairwise_append]
        refine ⟨hpwP, List.Pairwise.cons hDgt hpwD, ?_⟩
        intro a ha b hb
        rcases List.mem_cons.mp hb with hEq | hb'
        · subst hEq; exact hPlt a ha
        · exact hcrossPD a ha b hb'
      · intro x hx
        rcases List.mem_append.mp hx with hx | hx
        · refine ⟨Nat.zero_le _, ?_⟩
          apply hClt
          rw [← hPD]
          exact List.mem_append_left _ hx
        · rcases List.mem_cons.mp hx with hEq | hx'
          · subst hEq; exact ⟨Nat.zero_le _, hjn⟩
          · refine ⟨Nat.zero_le _, ?_⟩
            apply hClt
            rw [← hPD]
            exact List.mem_append_right _ hx'
    · rw [sum_div_eq_segs, sum_div_eq_segs, hBeq, segs_score_append_length, ← hPD]
      exact insert_seg_cost arr j D hDgt (le_of_lt hjn) P 0 (Nat.zero_le j) hPlt
    · right
      rw [hBeq, ← hPD, List.append_assoc]
      apply lex_append_left
      rcases hD0 : D with _ | ⟨d₀, D'⟩
      · exact List.Lex.rel hjn
      · have : j < d₀ := hDgt d₀ (by rw [hD0]; simp)
        exact List.Lex.rel this

/-! ### Partitioner: main facts about `balance_categories` -/

lemma balance_spec (arr : List ℕ) (k : ℕ)
    (hfeas : ∃ c ∈ cands arr.length (k - 1) 0, score (sum_div arr c) < maxsize) :
    balance_categories arr k ∈ cands arr.length (k - 1) 0 ∧
    (∀ c ∈ cands arr.length (k - 1) 0,
      score (sum_div arr (balance_categories arr k)) ≤ score (sum_div arr c)) ∧
    score (sum_div arr (balance_categories arr k)) < maxsize := by
  obtain ⟨B₀, hB₀, hB₀lt⟩ := hfeas
  have hbc := balance_categories_eq_foldl arr k
  have hle2 := foldl_bc_le_mem arr (cands arr.length (k - 1) 0)
    (List.replicate (k - 1) 0, maxsize) B₀ hB₀
  rcases foldl_bc_result arr (cands arr.length (k - 1) 0)
      (List.replicate (k - 1) 0, maxsize) with hid | ⟨hmem, hsc⟩
  · exfalso
    rw [hid] at hle2
    simp only [maxsize] at hle2 hB₀lt
    omega
  · have hsc' : score (sum_div arr (balance_categories arr k)) =
        ((cands arr.length (k - 1) 0).foldl (bc_step arr)
          (List.replicate (k - 1) 0, maxsize)).2 := by
      rw [hbc, ← hsc]
    refine ⟨hbc ▸ hmem, ?_, ?_⟩
    · intro c hc
      rw [hsc']
      exact foldl_bc_le_mem arr _ _ c hc
    · rw [hsc']
      exact lt_of_le_of_lt hle2 hB₀lt

lemma balance_first (arr : List ℕ) (k : ℕ)
    (hfeas : ∃ c ∈ cands arr.length (k - 1) 0, score (sum_div arr c) < maxsize) :
    ∀ c ∈ cands arr.length (k - 1) 0,
      score (sum_div arr c) = score (sum_div arr (balance_categories arr k)) →
      c = balance_categories arr k ∨
        List.Lex (· < ·) (balance_categories arr k) c := by
  intro c hc hEq
  obtain ⟨_, _, hlt⟩ := balance_spec arr k hfeas
  have hbc := balance_categories_eq_foldl arr k
  have hsc' : score (sum_div arr (balance_categories arr k)) =
      ((cands arr.length (k - 1) 0).foldl (bc_step arr)
        (List.replicate (k - 1) 0, maxsize)).2 := by
    rcases foldl_bc_result arr (cands arr.length (k - 1) 0)
        (List.replicate (k - 1) 0, maxsize) with hid | ⟨_, hsc⟩
    · exfalso
      have hle2 := foldl_bc_le_mem arr (cands arr.length (k - 1) 0)
        (List.replicate (k - 1) 0, maxsize) c hc
      rw [hid] at hle2
      rw [← hEq] at hlt
      simp only [maxsize] at hle2 hlt
      omega
    · rw [hbc, ← hsc]
  have := foldl_bc_first arr (cands arr.length (k - 1) 0)
    (List.replicate (k - 1) 0, maxsize) (cands_sorted arr.length (k - 1) 0)
    (Or.inl rfl) c hc (by rw [← hsc', hEq]) (by rw [← hsc']; exact hlt)
  rcases this with h | h
  · left; rw [h, hbc]
  · right; rw [hbc]; exact hbc ▸ h

lemma balance_no_divs (arr : List ℕ) (k : ℕ) (h : k - 1 = 0) :
    balance_categories arr k = [] := by
  simp only [balance_categories, h, List.replicate, bal_cat_rec, bc_step]
  split <;> rfl

/-- C1 (counterexample): with two weights of `2^32` and `groupCount = 2`
every candidate cost reaches `sys.maxsize`, so the best-so-far update never
fires and the returned boundary `[0]` (cost `2^66`) does not achieve the
minimum — the valid boundary set `[1]` costs only `2^65`. -/
theorem c1_counterexample :
    balance_categories [4294967296, 4294967296] 2 = [0] ∧
    SpecCand 2 2 [1] ∧
    score (sum_div [4294967296, 4294967296] [1]) <
      score (sum_div [4294967296, 4294967296]
        (balance_categories [4294967296, 4294967296] 2)) := by
  refine ⟨by decide, by decide, by decide⟩

/-- C1 (amended): for every weight sequence and `1 ≤ groupCount ≤ n + 1`,
provided some valid boundary set has cost below `sys.maxsize`, the boundary
set returned by `balance_categories` is valid and achieves the minimum
sum-of-squares cost over all strictly increasing boundary sets drawn from
`[0, n]`. -/
theorem c1_balance_optimal (arr : List ℕ) (k : ℕ) (hk1 : 1 ≤ k)
    (hk2 : k ≤ arr.length + 1)
    (hfeas : ∃ B, SpecCand arr.length k B ∧ score (sum_div arr B) < maxsize) :
    SpecCand arr.length k (balance_categories arr k) ∧
    ∀ B, SpecCand arr.length k B →
      score (sum_div arr (balance_categories arr k)) ≤ score (sum_div arr B) := by
  obtain ⟨B₀, hB₀, hB₀lt⟩ := hfeas
  obtain ⟨B₀', hmem₀, hle₀, _⟩ := spec_to_enum arr k hk2 B₀ hB₀
  have hfeas' : ∃ c ∈ cands arr.length (k - 1) 0, score (sum_div arr c) < maxsize :=
    ⟨B₀', hmem₀, lt_of_le_of_lt hle₀ hB₀lt⟩
  obtain ⟨hmem, hopt, _⟩ := balance_spec arr k hfeas'
  constructor
  · obtain ⟨hL, hP, hBd⟩ := cands_shape arr.length (k - 1) 0 _ hmem
    exact ⟨hL, hP, fun b hb => le_of_lt (hBd b hb).2⟩
  · intro B hB
    obtain ⟨B', hmem', hle', _⟩ := spec_to_enum arr k hk2 B hB
    exact le_trans (hopt B' hmem') hle'

/-- C1 witness: the spec's own partition scenario, weights `[5,3,3,5]` with
two groups; the returned boundary's cost is no worse than boundary `[1]`. -/
theorem c1_balance_optimal_witness :
    score (sum_div [5, 3, 3, 5] (balance_categories [5, 3, 3, 5] 2)) ≤
      score (sum_div [5, 3, 3, 5] [1]) :=
  (c1_balance_optimal [5, 3, 3, 5] 2 (by decide) (by decide)
    ⟨[2], by decide, by decide⟩).2 [1] (by decide)

/-- C5 (counterexample): with weights `[2^32, 0, 2^32]` and two groups the
boundary sets `[1]` and `[2]` tie at the minimal cost `2^65`, but every
candidate cost reaches `sys.maxsize`, so the function returns `[0]` — not
the lexicographically smallest optimal boundary set `[1]`. -/
theorem c5_counterexample :
    balance_categories [4294967296, 0, 4294967296] 2 = [0] ∧
    SpecCand 3 2 [1] ∧ SpecCand 3 2 [2] ∧
    score (sum_div [4294967296, 0, 4294967296] [1]) =
      score (sum_div [4294967296, 0, 4294967296] [2]) ∧
    score (sum_div [4294967296, 0, 4294967296] [1]) <
      score (sum_div [4294967296, 0, 4294967296] [0]) ∧
    score (sum_div [4294967296, 0, 4294967296] [1]) <
      score (sum_div [4294967296, 0, 4294967296] [3]) := by
  refine ⟨by decide, by decide, by decide, by decide, by decide, by decide⟩

/-- C5 (amended): `balance_categories` is a pure function (identical inputs
give identical boundaries), and provided some valid boundary set has cost
below `sys.maxsize`, whenever a valid boundary set is optimal the returned
one equals it or precedes it lexicographically; in particular the weights
`[1,1,1,1]` with two groups give `[2]`. -/
theorem c5_balance_deterministic_tiebreak (arr : List ℕ) (k : ℕ)
    (hk2 : k ≤ arr.length + 1)
    (hfeas : ∃ B, SpecCand arr.length k B ∧ score (sum_div arr B) < maxsize) :
    (∀ arr₂ k₂, arr₂ = arr → k₂ = k →
      balance_categories arr₂ k₂ = balance_categories arr k) ∧
    (∀ B, SpecCand arr.length k B →
      (∀ B₂, SpecCand arr.length k B₂ →
        score (sum_div arr B) ≤ score (sum_div arr B₂)) →
      (balance_categories arr k = B ∨
        List.Lex (· < ·) (balance_categories arr k) B)) ∧
    balance_categories [1, 1, 1, 1] 2 = [2] := by
  obtain ⟨B₀, hB₀, hB₀lt⟩ := hfeas
  obtain ⟨B₀', hmem₀, hle₀, _⟩ := spec_to_enum arr k hk2 B₀ hB₀
  have hfeas' : ∃ c ∈ cands arr.length (k - 1) 0, score (sum_div arr c) < maxsize :=
    ⟨B₀', hmem₀, lt_of_le_of_lt hle₀ hB₀lt⟩
  obtain ⟨hmem, hopt, _⟩ := balance_spec arr k hfeas'
  have hbalspec : SpecCand arr.length k (balance_categories arr k) := by
    obtain ⟨hL, hP, hBd⟩ := cands_shape arr.length (k - 1) 0 _ hmem
    exact ⟨hL, hP, fun b hb => le_of_lt (hBd b hb).2⟩
  refine ⟨fun arr₂ k₂ h1 h2 => by rw [h1, h2], ?_, by decide⟩
  intro B hBspec hBopt
  obtain ⟨B', hmem', hle', hlex'⟩ := spec_to_enum arr k hk2 B hBspec
  have h1 : score (sum_div arr (balance_categories arr k)) ≤ score (sum_div arr B') :=
    hopt B' hmem'
  have h2 : score (sum_div arr B) ≤ score (sum_div arr (balance_categories arr k)) :=
    hBopt _ hbalspec
  have hEq : score (sum_div arr B') = score (sum_div arr (balance_categories arr k)) := by
    omega
  have htie := balance_first arr k hfeas' B' hmem' hEq
  rcases htie with h | h
  · rcases hlex' with h' | h'
    · left; rw [← h, h']
    · right; rw [← h]; exact h'
  · rcases hlex' with h' | h'
    · right; rw [← h']; exact h
    · right; exact lex_trans h h'

/-- C5 witness: the tie-break example from the spec, extracted by applying
the theorem at weights `[1,1,1,1]` and `groupCount 2`. -/
theorem c5_balance_deterministic_tiebreak_witness :
    balance_categories [1, 1, 1, 1] 2 = [2] :=
  (c5_balance_deterministic_tiebreak [1, 1, 1, 1] 2 (by decide)
    ⟨[2], by decide, by decide⟩).2.2

/-- C6 (counterexample): with three weights of `2^32` and three groups,
every candidate cost reaches `sys.maxsize`, so the function returns the
initial sentinel `(0, 0)` — a boundary list that is not strictly
increasing. -/
theorem c6_counterexample :
    balance_categories [4294967296, 4294967296, 4294967296] 3 = [0, 0] ∧
    ¬ (balance_categories [4294967296, 4294967296, 4294967296] 3).Pairwise (· < ·) := by
  refine ⟨by decide, by decide⟩

/-- C6 (amended): for every weight sequence and positive
`groupCount ≤ n + 1`, provided some valid boundary set has cost below
`sys.maxsize`, the returned list has exactly `groupCount - 1` strictly
increasing entries lying in `[0, n]`; for `groupCount = 1` the returned
list is unconditionally empty (no cost proviso: the feasibility
hypothesis conditions only the shape conjunct). -/
theorem c6_balance_shape (arr : List ℕ) (k : ℕ) (hk1 : 1 ≤ k)
    (hk2 : k ≤ arr.length + 1) :
    ((∃ B, SpecCand arr.length k B ∧ score (sum_div arr B) < maxsize) →
      (balance_categories arr k).length = k - 1 ∧
      (balance_categories arr k).Pairwise (· < ·) ∧
      ∀ b ∈ balance_categories arr k, b ≤ arr.length) ∧
    (k = 1 → balance_categories arr k = []) := by
  constructor
  · rintro ⟨B₀, hB₀, hB₀lt⟩
    obtain ⟨B₀', hmem₀, hle₀, _⟩ := spec_to_enum arr k hk2 B₀ hB₀
    obtain ⟨hmem, _, _⟩ := balance_spec arr k
      ⟨B₀', hmem₀, lt_of_le_of_lt hle₀ hB₀lt⟩
    obtain ⟨hL, hP, hBd⟩ := cands_shape arr.length (k - 1) 0 _ hmem
    exact ⟨hL, hP, fun b hb => le_of_lt (hBd b hb).2⟩
  · intro hk
    exact balance_no_divs arr k (by omega)

/-- C6 witness: the shape facts at the spec's partition scenario
`[5,3,3,5]` with two groups, and the `groupCount = 1` edge case at a
weight sequence whose only boundary set costs at least `sys.maxsize`
(so the list is empty even though the cost proviso fails). -/
theorem c6_balance_shape_witness :
    (balance_categories [5, 3, 3, 5] 2).length = 1 ∧
    balance_categories [4294967296] 1 = [] :=
  ⟨((c6_balance_shape [5, 3, 3, 5] 2 (by decide) (by decide)).1
      ⟨[2], by decide, by decide⟩).1,
   (c6_balance_shape [4294967296] 1 (by decide) (by decide)).2 rfl⟩

/-- C9 (counterexample): on degenerate requests the partitioner does not
fail: `groupCount = 0` returns the empty boundary list and
`groupCount - 1 > n` returns a truncated degenerate all-zero list. -/
theorem c9_counterexample :
    balance_categories [1] 0 = [] ∧ balance_categories [1] 3 = [0, 0] := by
  refine ⟨by decide, by decide⟩

/-- C9 (amended): the partitioner performs no input validation and never
raises: `groupCount = 0` yields `[]`, and `groupCount - 1 > n` leaves the
initial sentinel in place, yielding the degenerate list of
`groupCount - 1` zeros. -/
theorem c9_no_validation (arr : List ℕ) (k : ℕ) :
    (k = 0 → balance_categories arr k = []) ∧
    (arr.length < k - 1 → balance_categories arr k = List.replicate (k - 1) 0) := by
  constructor
  · intro hk
    exact balance_no_divs arr k (by omega)
  · intro h
    rw [balance_categories_eq_foldl]
    obtain ⟨m, hm⟩ : ∃ m, k - 1 = m + 1 := ⟨k - 2, by omega⟩
    rw [hm, cands_empty arr.length m 0 (by omega)]
    rw [← hm]
    rfl

/-- C9 witness: both degenerate branches at concrete inputs. -/
theorem c9_no_validation_witness :
    balance_categories [1] 3 = List.replicate 2 0 :=
  (c9_no_validation [1] 3).2 (by decide)

/-- C10: for nonempty weight sequences and valid `groupCount ≥ 2`, every
returned boundary is at most `n - 1`: the enumeration in `bal_cat_rec`
draws dividers from `range(i, len(arr))` and the sentinel is all zeros, so
index `n` never appears and the last segment always spans at least one
bucket. -/
theorem c10_balance_upper_bound (arr : List ℕ) (k : ℕ) (h1 : 1 ≤ arr.length)
    (h2 : 2 ≤ k) (h3 : k ≤ arr.length + 1) :
    ∀ b ∈ balance_categories arr k, b ≤ arr.length - 1 := by
  intro b hb
  rw [balance_categories_eq_foldl] at hb
  rcases foldl_bc_result arr (cands arr.length (k - 1) 0)
      (List.replicate (k - 1) 0, maxsize) with hid | ⟨hmem, _⟩
  · rw [hid] at hb
    have := List.eq_of_mem_replicate hb
    omega
  · have := (cands_shape arr.length (k - 1) 0 _ hmem).2.2 b hb
    omega

/-- C10 witness: at weights `[1,1]` with two groups the returned boundary
`[1]` stays at most `n - 1 = 1`. -/
theorem c10_balance_upper_bound_witness : (1 : ℕ) ≤ 1 :=
  c10_balance_upper_bound [1, 1] 2 (by decide) (by decide) (by decide) 1 (by decide)

/-! ### Reconciler: helper lemmas about `move_channel` -/

lemma find?_id_mem {chs : List Chan} {moved_id : ℕ} {ch : Chan}
    (hf : chs.find? (fun c => c.id == moved_id) = some ch) :
    ch ∈ chs ∧ ch.id = moved_id := by
  refine ⟨List.mem_of_find?_eq_some hf, ?_⟩
  simpa using List.find?_some hf

lemma move_channel_eq_map {chs : List Chan} {moved_id cat_id : ℕ} {new_pos : ℤ} {ch : Chan}
    (hf : chs.find? (fun c => c.id == moved_id) = some ch) :
    move_channel chs moved_id cat_id new_pos =
      chs.map (fun c => if c.id == moved_id
        then { c with category_id := cat_id, position := new_pos }
        else { c with position := adjust_position ch.position new_pos c.position }) := by
  unfold move_channel
  rw [hf]
  dsimp only
  rw [List.map_map]
  apply List.map_congr_left
  intro c _
  by_cases h : (c.id == moved_id)
  · simp [Function.comp, h]
  · simp [Function.comp, h]

lemma move_channel_length (chs : List Chan) (moved_id cat_id : ℕ) (new_pos : ℤ) :
    (move_channel chs moved_id cat_id new_pos).length = chs.length := by
  unfold move_channel
  cases hf : chs.find? (fun c => c.id == moved_id) <;> simp

lemma adjust_position_self (o p : ℤ) : adjust_position o o p = p := by
  unfold adjust_position
  split_ifs <;> omega

lemma adjust_position_ne_new {o n q : ℤ} (hq : q ≠ o) : adjust_position o n q ≠ n := by
  unfold adjust_position
  split_ifs <;> omega

lemma adjust_position_strict_mono {o n p q : ℤ} (hp : p ≠ o) (hq : q ≠ o) (h : p < q) :
    adjust_position o n p < adjust_position o n q := by
  unfold adjust_position
  split_ifs <;> omega

lemma adjust_position_bounds {o n q N : ℤ} (ho : 0 ≤ o) (ho' : o < N)
    (hq0 : 0 ≤ q) (hq1 : q < N) :
    0 ≤ adjust_position o n q ∧ adjust_position o n q < N := by
  unfold adjust_position
  split_ifs <;> omega

/-- C3: in a reposition from `oldPos = ch.position` to `newPos`, when
`newPos < oldPos` exactly the other channels with position in
`[newPos, oldPos)` are incremented by one, when `newPos > oldPos` exactly
the other channels with position in `(oldPos, newPos]` are decremented by
one, all remaining channels keep their position, and the moved channel
itself ends at `newPos`. -/
theorem c3_adjustments (chs : List Chan) (moved_id cat_id : ℕ) (new_pos : ℤ) (ch : Chan)
    (hf : chs.find? (fun c => c.id == moved_id) = some ch) :
    (move_channel chs moved_id cat_id new_pos).length = chs.length ∧
    ∀ t : ℕ, ∀ c c' : Chan, chs.get? t = some c →
      (move_channel chs moved_id cat_id new_pos).get? t = some c' →
      ((c.id = moved_id → c'.position = new_pos) ∧
       (c.id ≠ moved_id →
         ((new_pos < ch.position →
            c'.position = if new_pos ≤ c.position ∧ c.position < ch.position
              then c.position + 1 else c.position) ∧
          (ch.position < new_pos →
            c'.position = if ch.position < c.position ∧ c.position ≤ new_pos
              then c.position - 1 else c.position) ∧
          (new_pos = ch.position → c'.position = c.position)))) := by
  refine ⟨move_channel_length chs moved_id cat_id new_pos, ?_⟩
  intro t c c' hget hget'
  rw [move_channel_eq_map hf, List.get?_map, hget] at hget'
  simp only [Option.map_some'] at hget'
  injection hget' with hc'
  constructor
  · intro hid
    rw [← hc']
    simp [hid]
  · intro hid
    have hbeq : (c.id == moved_id) = false := by simpa using hid
    rw [← hc']
    simp only [hbeq, Bool.false_eq_true, if_false]
    refine ⟨?_, ?_, ?_⟩
    · intro hlt
      simp only [adjust_position, gt_iff_lt, if_pos hlt]
    · intro hlt
      have : ¬ (ch.position > new_pos) := by omega
      simp only [adjust_position, gt_iff_lt, if_neg this]
    · intro hEq
      rw [hEq, adjust_position_self]

/-- C3 witness: in the end-to-end scenario (Apple moved from 0 to 2),
Cherry at position 2 lies in `(0, 2]` and is decremented to 1. -/
theorem c3_adjustments_witness : (1 : ℤ) = 1 := by
  have h := (c3_adjustments demo_channels 1 0 2 ⟨1, "Apple", 0, 0⟩ rfl).2 2
    ⟨3, "Cherry", 0, 2⟩ ⟨3, "Cherry", 0, 1⟩ rfl rfl
  have h2 := ((h.2 (by decide)).2.1 (by decide))
  simpa using h2

/-- C7: repositioning a channel to the rank it already occupies in its
container derives `newPos = oldPos` and changes no position at all: the
whole move only rewrites the moved channel's category field. -/
theorem c7_noop_reposition (chs cat_chs : List Chan) (moved_id cat_id r : ℕ)
    (ch : Chan) (np : ℤ)
    (hf : chs.find? (fun c => c.id == moved_id) = some ch)
    (hids : (chs.map Chan.id).Nodup)
    (hrank : cat_chs.get? r = some ch)
    (hnp : new_pos_of cat_chs r = some np) :
    np = ch.position ∧
    move_channel chs moved_id cat_id np =
      chs.map (fun c => if c.id == moved_id then { c with category_id := cat_id } else c) := by
  have hnp' : np = ch.position := by
    unfold new_pos_of at hnp
    rw [hrank] at hnp
    injection hnp with h
    exact h.symm
  obtain ⟨hchmem, hchid⟩ := find?_id_mem hf
  refine ⟨hnp', ?_⟩
  rw [hnp', move_channel_eq_map hf]
  apply List.map_congr_left
  intro c hc
  by_cases h : (c.id == moved_id)
  · have hceq : c = ch := by
      apply List.inj_on_of_nodup_map hids hc hchmem
      rw [hchid]
      simpa using h
    simp only [h, if_true]
    rw [hceq]
  · simp only [h, Bool.false_eq_true, if_false, adjust_position_self]

/-- C7 witness: asking Apple to stay at its current rank 0 leaves every
position unchanged (the map rewrites only the category field, which is
already 0). -/
theorem c7_noop_reposition_witness :
    move_channel demo_channels 1 0 0 =
      demo_channels.map (fun c => if c.id == 1 then { c with category_id := 0 } else c) :=
  (c7_noop_reposition demo_channels demo_channels 1 0 0 ⟨1, "Apple", 0, 0⟩ 0
    rfl (by decide) rfl rfl).2

/-- C8: for any two channels neither of which is the moved one (and,
consistently with the density invariant, neither sitting on the moved
channel's old position), their strict position order is preserved by the
move. -/
theorem c8_order_preserved (chs : List Chan) (moved_id cat_id : ℕ) (new_pos : ℤ)
    (ch : Chan) (s t : ℕ) (x y x' y' : Chan)
    (hf : chs.find? (fun c => c.id == moved_id) = some ch)
    (hx : chs.get? s = some x) (hy : chs.get? t = some y)
    (hx' : (move_channel chs moved_id cat_id new_pos).get? s = some x')
    (hy' : (move_channel chs moved_id cat_id new_pos).get? t = some y')
    (hxid : x.id ≠ moved_id) (hyid : y.id ≠ moved_id)
    (hxp : x.position ≠ ch.position) (hyp : y.position ≠ ch.position)
    (hlt : x.position < y.position) :
    x'.position < y'.position := by
  rw [move_channel_eq_map hf, List.get?_map, hx] at hx'
  rw [move_channel_eq_map hf, List.get?_map, hy] at hy'
  simp only [Option.map_some'] at hx' hy'
  injection hx' with hx'
  injection hy' with hy'
  have hxbeq : (x.id == moved_id) = false := by simpa using hxid
  have hybeq : (y.id == moved_id) = false := by simpa using hyid
  rw [← hx', ← hy']
  simp only [hxbeq, hybeq, Bool.false_eq_true, if_false]
  exact adjust_position_strict_mono hxp hyp hlt

/-- C8 witness: in the end-to-end scenario, Banana (position 1) and Date
(position 3) keep their order after Apple's move: 0 < 3. -/
theorem c8_order_preserved_witness : (0 : ℤ) < 3 :=
  c8_order_preserved demo_channels 1 0 2 ⟨1, "Apple", 0, 0⟩ 1 3
    ⟨2, "Banana", 0, 1⟩ ⟨4, "Date", 0, 3⟩ ⟨2, "Banana", 0, 0⟩ ⟨4, "Date", 0, 3⟩
    rfl rfl rfl rfl rfl (by decide) (by decide) (by decide) (by decide) (by decide)

/-! ### Reconciler: the density invariant -/

lemma mem_cast_range {v : ℤ} {N : ℕ} (h0 : 0 ≤ v) (h1 : v < N) :
    v ∈ range_cast N := by
  have h2 : v.toNat < N := by omega
  have h3 : Int.ofNat v.toNat = v := by
    simp only [Int.ofNat_eq_natCast]
    omega
  exact List.mem_map.mpr ⟨v.toNat, List.mem_range.mpr h2, h3⟩

/-- C4: from a dense before-state (positions are exactly the range
`0..n-1`), any single reposition of a present channel to a target position
inside the ordinal space leaves the positions a contiguous duplicate-free
range `0..n-1`. -/
theorem c4_density_invariant (chs : List Chan) (moved_id cat_id : ℕ) (new_pos : ℤ)
    (ch : Chan)
    (hf : chs.find? (fun c => c.id == moved_id) = some ch)
    (hids : (chs.map Chan.id).Nodup)
    (hdense : DensePos chs)
    (h0 : 0 ≤ new_pos) (h1 : new_pos < (chs.length : ℤ)) :
    DensePos (move_channel chs moved_id cat_id new_pos) := by
  obtain ⟨hchmem, hchid⟩ := find?_id_mem hf
  have htnd : (range_cast chs.length).Nodup :=
    (List.nodup_range _).map (fun a b h => Int.ofNat.inj h)
  have hpnd : (posList chs).Nodup := (List.Perm.nodup_iff hdense).mpr htnd
  have hbounds : ∀ c ∈ chs, 0 ≤ c.position ∧ c.position < (chs.length : ℤ) := by
    intro c hc
    have hmem : c.position ∈ posList chs := List.mem_map_of_mem _ hc
    have hmem' : c.position ∈ range_cast chs.length := hdense.mem_iff.mp hmem
    obtain ⟨t, ht, hEq⟩ := List.mem_map.mp hmem'
    have := List.mem_range.mp ht
    simp only [Int.ofNat_eq_natCast] at hEq
    omega
  have posInj : ∀ a ∈ chs, ∀ b ∈ chs, a.position = b.position → a = b :=
    fun a ha b hb h => List.inj_on_of_nodup_map hpnd ha hb h
  have idInj : ∀ a ∈ chs, ∀ b ∈ chs, a.id = b.id → a = b :=
    fun a ha b hb h => List.inj_on_of_nodup_map hids ha hb h
  have hne_old : ∀ c ∈ chs, c.id ≠ moved_id → c.position ≠ ch.position := by
    intro c hc hcid hEq
    exact hcid ((posInj c hc ch hchmem hEq) ▸ hchid)
  -- positions after the move, as a single map over the before-state
  have hposs : posList (move_channel chs moved_id cat_id new_pos) =
      chs.map (fun c => if c.id == moved_id then new_pos
        else adjust_position ch.position new_pos c.position) := by
    rw [move_channel_eq_map hf]
    unfold posList
    rw [List.map_map]
    apply List.map_congr_left
    intro c _
    by_cases h : (c.id == moved_id)
    · simp [Function.comp, h]
    · simp [Function.comp, h]
  have hval : ∀ c ∈ chs,
      (if c.id == moved_id then new_pos
        else adjust_position ch.position new_pos c.position) = new_pos ∨
      ∃ hcid : c.id ≠ moved_id,
        (if c.id == moved_id then new_pos
          else adjust_position ch.position new_pos c.position) =
          adjust_position ch.position new_pos c.position := by
    intro c _
    by_cases h : (c.id == moved_id)
    · left; simp [h]
    · right
      refine ⟨by simpa using h, ?_⟩
      simp [h]
  -- Nodup
  have hnd' : (chs.map (fun c => if c.id == moved_id then new_pos
      else adjust_position ch.position new_pos c.position)).Nodup := by
    have hpw : chs.Pairwise (fun a b => a.position ≠ b.position) := by
      have := hpnd
      unfold posList at this
      unfold List.Nodup at this
      exact List.pairwise_map.mp this
    have hpw' : chs.Pairwise (fun a b =>
        (if a.id == moved_id then new_pos
          else adjust_position ch.position new_pos a.position) ≠
        (if b.id == moved_id then new_pos
          else adjust_position ch.position new_pos b.position)) := by
      refine hpw.imp_of_mem ?_
      intro a b ha hb hab
      by_cases haid : (a.id == moved_id) <;> by_cases hbid : (b.id == moved_id)
      · exfalso
        have ha' : a = ch := idInj a ha ch hchmem (by rw [hchid]; simpa using haid)
        have hb' : b = ch := idInj b hb ch hchmem (by rw [hchid]; simpa using hbid)
        rw [ha', hb'] at hab
        exact hab rfl
      · simp only [haid, hbid, Bool.false_eq_true, if_true, if_false]
        have hbne : b.position ≠ ch.position := hne_old b hb (by simpa using hbid)
        exact fun h => (adjust_position_ne_new hbne) h.symm
      · simp only [haid, hbid, Bool.false_eq_true, if_true, if_false]
        have hane : a.position ≠ ch.position := hne_old a ha (by simpa using haid)
        exact adjust_position_ne_new hane
      · simp only [haid, hbid, Bool.false_eq_true, if_false]
        have hane : a.position ≠ ch.position := hne_old a ha (by simpa using haid)
        have hbne : b.position ≠ ch.position := hne_old b hb (by simpa using hbid)
        rcases lt_or_gt_of_ne hab with h | h
        · exact ne_of_lt (adjust_position_strict_mono hane hbne h)
        · exact (ne_of_lt (adjust_position_strict_mono hbne hane h)).symm
    exact List.pairwise_map.mpr hpw'
  -- bounds
  have hsub : (chs.map (fun c => if c.id == moved_id then new_pos
      else adjust_position ch.position new_pos c.position)) ⊆
      range_cast chs.length := by
    intro v hv
    obtain ⟨c, hc, rfl⟩ := List.mem_map.mp hv
    by_cases h : (c.id == moved_id)
    · simp only [h, if_true]
      exact mem_cast_range h0 h1
    · simp only [h, Bool.false_eq_true, if_false]
      obtain ⟨hco, hco'⟩ := hbounds ch hchmem
      obtain ⟨hc0, hc1⟩ := hbounds c hc
      obtain ⟨hb0, hb1⟩ := adjust_position_bounds hco hco' hc0 hc1 (n := new_pos)
      exact mem_cast_range hb0 hb1
  -- assemble the permutation
  unfold DensePos
  rw [hposs, move_channel_length]
  have hlen : (range_cast chs.length).length ≤
      (chs.map (fun c => if c.id == moved_id then new_pos
        else adjust_position ch.position new_pos c.position)).length := by
    simp [range_cast]
  exact (hnd'.subperm hsub).perm_of_length_le hlen

/-- C4 witness: the end-to-end scenario's move keeps positions a
permutation of `0..3`. -/
theorem c4_density_invariant_witness : DensePos (move_channel demo_channels 1 0 2) :=
  c4_density_invariant demo_channels 1 0 2 ⟨1, "Apple", 0, 0⟩ rfl
    (by decide) (by decide) (by decide) (by decide)
